import Mathlib

/-!
Verification development for the `pragma` procedural macro
(sources: `src/grammar.rs`, `src/parse.rs`, `src/lib.rs`).

The macro parses a sequence of annotated declarations, each with optional
attributes, a visibility qualifier, an optional `(if <condition>)` clause and
either an opaque item or a nested `mod` block, and emits `#[cfg(...)]`-guarded
copies of each declaration.

Shallow embedding notes:
* Proc-macro token streams arrive as *token trees*: parenthesized/braced
  groups are single pre-matched tokens holding a sub-stream (the host lexer
  rejects unbalanced delimiters before the macro runs).  We model a condition
  token stream as `List Tok`, where `Tok.group` is a parenthesized token tree.
* `syn`'s `peek(Ident)` does not match Rust keywords such as `if` or `mod`;
  `if` inside a condition group is therefore its own token `Tok.kwIf`.
* `syn` records tokens left unconsumed in a `parenthesized!` buffer via the
  buffer's `Drop` impl, and the whole macro invocation then fails when the
  outermost parse finishes.  Since the invocation-level result is an error and
  no output is produced, we model a group whose content is not fully consumed
  as an immediate parse error.
* Recursive-descent parsers are written with an explicit fuel argument (each
  call steps the fuel down once) so that they are structurally recursive and
  computable; wrappers supply fuel that is provably sufficient.
-/

/-- A token of the embedded condition language, after host lexing.
`group` is a parenthesized token tree; `kwIf` is the Rust keyword `if`
(not matched by `peek(Ident)`); `comma` occurs in emitted cfg syntax. -/
inductive Tok where
  | ident (s : String)
  | eq
  | litStr (s : String)
  | comma
  | kwIf
  | group (ts : List Tok)
deriving Repr

/-- The condition AST `ConditionExpr` from `src/grammar.rs`. -/
inductive ConditionExpr where
  | All (children : List ConditionExpr)
  | Any (children : List ConditionExpr)
  | Not (inner : ConditionExpr)
  | KeyVal (key : String) (val : String)
  | Key (key : String)
deriving Repr

/-- Result of a sub-parser: the parsed expression and the remaining stream,
or a syntax error message. -/
abbrev PResult := Except String (ConditionExpr × List Tok)

mutual

/-- Embeds `parse_condition` from `src/grammar.rs`: entry of the condition grammar. -/
def parse_condition : Nat → List Tok → PResult
  | 0, _ => .error "fuel exhausted"
  | fuel + 1, input => parse_or_expr fuel input

/-- Embeds `parse_or_expr` from `src/grammar.rs`: an `AndExpr` followed by the
`('or' AndExpr)*` loop. -/
def parse_or_expr : Nat → List Tok → PResult
  | 0, _ => .error "fuel exhausted"
  | fuel + 1, input =>
    match parse_and_expr fuel input with
    | .error e => .error e
    | .ok (expr, rest) => parse_or_loop fuel expr rest

/-- The `loop` body of `parse_or_expr`: peek an identifier, commit only when
it is exactly `or`, then parse the right-hand `AndExpr` and fold it in. -/
def parse_or_loop : Nat → ConditionExpr → List Tok → PResult
  | 0, _, _ => .error "fuel exhausted"
  | fuel + 1, expr, input =>
    match input with
    | .ident s :: rest =>
      if s = "or" then
        match parse_and_expr fuel rest with
        | .error e => .error e
        | .ok (rhs, rest2) =>
          let expr' := match expr with
            | .Any v => ConditionExpr.Any (v ++ [rhs])
            | _ => ConditionExpr.Any [expr, rhs]
          parse_or_loop fuel expr' rest2
      else .ok (expr, input)
    | _ => .ok (expr, input)

/-- Embeds `parse_and_expr` from `src/grammar.rs`: a `Primary` followed by the
`('and' Primary)*` loop. -/
def parse_and_expr : Nat → List Tok → PResult
  | 0, _ => .error "fuel exhausted"
  | fuel + 1, input =>
    match parse_primary fuel input with
    | .error e => .error e
    | .ok (expr, rest) => parse_and_loop fuel expr rest

/-- The `loop` body of `parse_and_expr`: peek an identifier, commit only when
it is exactly `and`, then parse the right-hand `Primary` and fold it in. -/
def parse_and_loop : Nat → ConditionExpr → List Tok → PResult
  | 0, _, _ => .error "fuel exhausted"
  | fuel + 1, expr, input =>
    match input with
    | .ident s :: rest =>
      if s = "and" then
        match parse_primary fuel rest with
        | .error e => .error e
        | .ok (rhs, rest2) =>
          let expr' := match expr with
            | .All v => ConditionExpr.All (v ++ [rhs])
            | _ => ConditionExpr.All [expr, rhs]
          parse_and_loop fuel expr' rest2
      else .ok (expr, input)
    | _ => .ok (expr, input)

/-- Embeds `parse_primary` from `src/grammar.rs`.  After consuming an identifier, the
code commits to the `not(...)` branch whenever the identifier equals `not`:
`syn::parenthesized!` then errors unless the next token is a parenthesized
group.  Otherwise `=` lookahead selects `KeyVal` versus `Key`.  A leading
parenthesized group parses as a grouped condition. -/
def parse_primary : Nat → List Tok → PResult
  | 0, _ => .error "fuel exhausted"
  | fuel + 1, input =>
    match input with
    | .ident s :: rest =>
      if s = "not" then
        match rest with
        | .group content :: rest2 =>
          match parse_condition fuel content with
          | .error e => .error e
          | .ok (inner, []) => .ok (.Not inner, rest2)
          | .ok (_, _ :: _) => .error "unexpected token"
        | _ => .error "expected parentheses"
      else
        match rest with
        | .eq :: rest2 =>
          match rest2 with
          | .litStr v :: rest3 => .ok (.KeyVal s v, rest3)
          | _ => .error "expected string literal"
        | _ => .ok (.Key s, rest)
    | .group content :: rest =>
      match parse_condition fuel content with
      | .error e => .error e
      | .ok (inner, []) => .ok (inner, rest)
      | .ok (_, _ :: _) => .error "unexpected token"
    | _ => .error "expected condition (key, key=val, not(...), or (...))"

end

mutual

/-- Size of one token, counting the contents of groups. -/
def Tok.size : Tok → Nat
  | .group ts => 1 + Tok.sizeList ts
  | _ => 1

/-- Total size of a token stream. -/
def Tok.sizeList : List Tok → Nat
  | [] => 0
  | t :: ts => Tok.size t + Tok.sizeList ts

end

/-- Fuel that provably suffices to run the condition parser to completion on
`ts` (each parser call, loop iteration and group descent steps fuel once). -/
def condFuel (ts : List Tok) : Nat := 4 * Tok.sizeList ts + 8

/-- Parsing a whole condition token stream, with sufficient fuel. -/
def parseConditionTokens (ts : List Tok) : PResult :=
  parse_condition (condFuel ts) ts

/-- Joining a list of token streams with comma separators, as
`quote! { #(#inner),* }` does. -/
def joinComma : List (List Tok) → List Tok
  | [] => []
  | [ts] => ts
  | ts :: rest => ts ++ Tok.comma :: joinComma rest

mutual

/-- Embeds `condition_to_cfg` from `src/grammar.rs`, at the token level:
`All` → `all(...)`, `Any` → `any(...)`, `Not` → `not(...)`,
`KeyVal` → `key = "value"`, `Key` → bare key.  A parenthesized group in the
emitted stream is one `Tok.group` token tree, matching `quote!` output. -/
def condition_to_cfg : ConditionExpr → List Tok
  | .All es => [.ident "all", .group (joinComma (cfgMapList es))]
  | .Any es => [.ident "any", .group (joinComma (cfgMapList es))]
  | .Not e => [.ident "not", .group (condition_to_cfg e)]
  | .KeyVal k v => [.ident k, .eq, .litStr v]
  | .Key k => [.ident k]

/-- Embeds `exprs.iter().map(condition_to_cfg)` from the `All`/`Any` arms. -/
def cfgMapList : List ConditionExpr → List (List Tok)
  | [] => []
  | e :: es => condition_to_cfg e :: cfgMapList es

end

/-- Embeds `quote! { not(#main_condition) }` from `process_pragma_input`. -/
def inverseCfg (main : List Tok) : List Tok :=
  [.ident "not", .group main]

/-- Models `syn::Visibility` as the transformer distinguishes it: `Inherited`
(default) versus any explicit qualifier (the `_` arm of the `match`),
carrying the qualifier's text. -/
inductive Vis where
  | inherited
  | explicitVis (q : String)
deriving Repr

mutual

/-- Embeds `PragmaItem` from `src/parse.rs`: attributes (opaque, order-preserving),
visibility, optional condition, and the content. -/
inductive PragmaItem where
  | mk (attrs : List String) (visibility : Vis)
      (condition : Option ConditionExpr) (content : PragmaItemContent)

/-- Embeds `PragmaItemContent` from `src/parse.rs`: an opaque normal item, or a
module with a name and a nested item sequence (`PragmaInput` is the
item list). -/
inductive PragmaItemContent where
  | normal (item : String)
  | mod (ident : String) (content : List PragmaItem)

end

/-- One emitted declaration of the output stream: an optional `#[cfg(...)]`
guard (the guard's token stream), the attributes, the visibility actually
emitted, and the body — either the opaque item or a module wrapping emitted
inner declarations.  `quote!` concatenation makes the output of one input
item a contiguous run of such declarations. -/
inductive OutDecl where
  | item (cfg : Option (List Tok)) (attrs : List String) (vis : Vis)
      (body : String)
  | mod (cfg : Option (List Tok)) (attrs : List String) (vis : Vis)
      (name : String) (decls : List OutDecl)

mutual

/-- The per-item emission of `process_pragma_input` (`src/parse.rs`):
the closure mapped over `input.items`.  Each arm mirrors one `quote!` block;
the `Visibility::Inherited` arms emit no visibility token, modelled as
`Vis.inherited`. -/
def process_item : PragmaItem → List OutDecl
  | .mk attrs vis cond (.normal item) =>
    match cond with
    | some c =>
      match vis with
      | .inherited =>
        [.item (some (condition_to_cfg c)) attrs .inherited item]
      | .explicitVis q =>
        [.item (some (condition_to_cfg c)) attrs (.explicitVis q) item,
         .item (some (inverseCfg (condition_to_cfg c))) attrs .inherited item]
    | none => [.item none attrs vis item]
  | .mk attrs vis cond (.mod name inner) =>
    match cond with
    | some c =>
      match vis with
      | .inherited =>
        [.mod (some (condition_to_cfg c)) attrs .inherited name
          (process_pragma_input inner)]
      | .explicitVis q =>
        [.mod (some (condition_to_cfg c)) attrs (.explicitVis q) name
          (process_pragma_input inner),
         .mod (some (inverseCfg (condition_to_cfg c))) attrs .inherited name
          (process_pragma_input inner)]
    | none => [.mod none attrs vis name (process_pragma_input inner)]

/-- Embeds `process_pragma_input` from `src/parse.rs`: map the per-item emission
over the item sequence and concatenate (`quote! { #(#tokens)* }`). -/
def process_pragma_input : List PragmaItem → List OutDecl
  | [] => []
  | i :: rest => process_item i ++ process_pragma_input rest

end

/-- An item-level token (token tree) as `PragmaItem::parse` consumes them.
`attrTok` is one outer attribute; `visTok` an explicit visibility qualifier;
`parenGroup` a parenthesized group (candidate `(if ...)` clause) whose
content is a condition-level stream; `braceGroup` a braced module body;
`itemTok` an opaque host item not starting with the `mod` keyword (consumed
by `syn::Item` parsing, an external collaborator). -/
inductive ITok where
  | attrTok (s : String)
  | visTok (s : String)
  | parenGroup (ts : List Tok)
  | kwMod
  | identTok (s : String)
  | braceGroup (ts : List ITok)
  | semi
  | itemTok (s : String)

/-- Models `syn::Attribute::parse_outer`: collect all leading attributes. -/
def takeAttrs : List ITok → List String × List ITok
  | .attrTok s :: rest =>
    let (as_, r) := takeAttrs rest
    (s :: as_, r)
  | input => ([], input)

/-- Models `Visibility::parse`: an explicit qualifier when present, otherwise
`Inherited`; it never fails. -/
def takeVis : List ITok → Vis × List ITok
  | .visTok q :: rest => (.explicitVis q, rest)
  | input => (.inherited, input)

mutual

/-- Embeds `PragmaItem::parse` from `src/parse.rs`: attributes, visibility, then —
whenever a parenthesized group follows — unconditionally read that group as a
condition clause (`if` keyword, then a full condition), then either a
`mod <name> { ... }` block (inner items parsed by the same loop as
`PragmaInput::parse`) or one opaque item. -/
def parsePragmaItem : Nat → List ITok → Except String (PragmaItem × List ITok)
  | 0, _ => .error "fuel exhausted"
  | fuel + 1, input =>
    let (attrs, r1) := takeAttrs input
    let (vis, r2) := takeVis r1
    let condRes : Except String (Option ConditionExpr × List ITok) :=
      match r2 with
      | .parenGroup g :: r3 =>
        match g with
        | .kwIf :: gtail =>
          match parse_condition (condFuel gtail) gtail with
          | .error e => .error e
          | .ok (c, []) => .ok (some c, r3)
          | .ok (_, _ :: _) => .error "unexpected token"
        | _ => .error "expected `if`"
      | _ => .ok (none, r2)
    match condRes with
    | .error e => .error e
    | .ok (cond, r3) =>
      match r3 with
      | .kwMod :: .identTok name :: .braceGroup body :: r4 =>
        match parsePragmaItems fuel body with
        | .error e => .error e
        | .ok items => .ok (.mk attrs vis cond (.mod name items), r4)
      | .kwMod :: _ => .error "expected module name and body"
      | .itemTok s :: r4 => .ok (.mk attrs vis cond (.normal s), r4)
      | _ => .error "expected item"

/-- The `while !input.is_empty()` item loop shared by `PragmaInput::parse`
and the inline module-body loop of `PragmaItem::parse`: parse an item, then
consume one optional `;`. -/
def parsePragmaItems : Nat → List ITok → Except String (List PragmaItem)
  | 0, _ => .error "fuel exhausted"
  | _ + 1, [] => .ok []
  | fuel + 1, input =>
    match parsePragmaItem fuel input with
    | .error e => .error e
    | .ok (itm, rest) =>
      let rest2 := match rest with
        | .semi :: r => r
        | _ => rest
      match parsePragmaItems fuel rest2 with
      | .error e => .error e
      | .ok items => .ok (itm :: items)

end

mutual

/-- Size of one item-level token, counting braced-module contents. -/
def ITok.size : ITok → Nat
  | .braceGroup ts => 1 + ITok.sizeList ts
  | _ => 1

/-- Total size of an item-level token stream. -/
def ITok.sizeList : List ITok → Nat
  | [] => 0
  | t :: ts => ITok.size t + ITok.sizeList ts

end

/-- Fuel that provably suffices for the item parser on `ts`. -/
def itemFuel (ts : List ITok) : Nat := 2 * ITok.sizeList ts + 4

/-- The `pragma` entry point (`src/lib.rs`): parse the whole input as a
`PragmaInput`, then transform it; a parse error anywhere aborts with that
error and no output is produced. -/
def pragma_expand (ts : List ITok) : Except String (List OutDecl) :=
  match parsePragmaItems (itemFuel ts) ts with
  | .error e => .error e
  | .ok items => .ok (process_pragma_input items)

/-- The continuation `<op> k ...` of an operator chain after its first key. -/
def chainTail (op : String) : List String → List Tok
  | [] => []
  | k :: rest => .ident op :: .ident k :: chainTail op rest

/-- The token stream `k1 <op> k2 <op> ... <op> kn` for a left-associative
operator chain over bare keys. -/
def chainToks (op : String) : List String → List Tok
  | [] => []
  | k :: rest => .ident k :: chainTail op rest

mutual

/-- Number of AST nodes, counting one extra per list element; used as decoder
fuel. -/
def ConditionExpr.msize : ConditionExpr → Nat
  | .All es => 1 + ConditionExpr.msizeList es
  | .Any es => 1 + ConditionExpr.msizeList es
  | .Not e => 1 + ConditionExpr.msize e
  | .KeyVal _ _ => 1
  | .Key _ => 1

/-- Node count of a list of ASTs (see `ConditionExpr.msize`). -/
def ConditionExpr.msizeList : List ConditionExpr → Nat
  | [] => 0
  | e :: es => ConditionExpr.msize e + 1 + ConditionExpr.msizeList es

end

/-- Split a token stream at its top-level commas (commas nested inside a
`Tok.group` are inside that single token and are not split points). -/
def splitGo : List Tok → List (List Tok)
  | [] => [[]]
  | .comma :: rest => [] :: splitGo rest
  | t :: rest =>
    match splitGo rest with
    | [] => [[t]]
    | c :: cs => (t :: c) :: cs

/-- Top-level comma split; the empty stream holds no arguments at all. -/
def splitTop : List Tok → List (List Tok)
  | [] => []
  | t :: ts => splitGo (t :: ts)

mutual

/-- Decoder for the emitted cfg predicate syntax: inverse of
`condition_to_cfg`, reading `all(...)`/`any(...)`/`not(...)`/`k = "v"`/`k`
back into the AST.  Used to state that the emitted syntax nests exactly as
the AST does. -/
def decodeCfg : Nat → List Tok → Option ConditionExpr
  | 0, _ => none
  | fuel + 1, ts =>
    match ts with
    | [.ident "all", .group g] =>
      match decodeCfgList fuel (splitTop g) with
      | some es => some (.All es)
      | none => none
    | [.ident "any", .group g] =>
      match decodeCfgList fuel (splitTop g) with
      | some es => some (.Any es)
      | none => none
    | [.ident "not", .group g] =>
      match decodeCfg fuel g with
      | some e => some (.Not e)
      | none => none
    | [.ident k, .eq, .litStr v] => some (.KeyVal k v)
    | [.ident k] => some (.Key k)
    | _ => none

/-- Decode each comma-separated argument. -/
def decodeCfgList : Nat → List (List Tok) → Option (List ConditionExpr)
  | 0, _ => none
  | _ + 1, [] => some []
  | fuel + 1, g :: gs =>
    match decodeCfg fuel g, decodeCfgList fuel gs with
    | some e, some es => some (e :: es)
    | _, _ => none

end

example :
    parseConditionTokens [.ident "a", .ident "and", .ident "b"] =
      .ok (.All [.Key "a", .Key "b"], []) := rfl

example :
    parseConditionTokens [.ident "not", .group [.ident "a"]] =
      .ok (.Not (.Key "a"), []) := rfl

example :
    pragma_expand [.visTok "pub", .parenGroup [.kwIf, .ident "test"],
        .itemTok "fn g"] =
      .ok [.item (some [.ident "test"]) [] (.explicitVis "pub") "fn g",
        .item (some [.ident "not", .group [.ident "test"]]) [] .inherited
          "fn g"] := rfl

/-- The transformer distributes over concatenation of item sequences: the
output of each item is a contiguous run in the output. -/
theorem process_pragma_input_append (xs ys : List PragmaItem) :
    process_pragma_input (xs ++ ys) =
      process_pragma_input xs ++ process_pragma_input ys := by
  induction xs with
  | nil => simp [process_pragma_input]
  | cons i rest ih => simp [process_pragma_input, ih]

/-- C4: the condition grammar gives `and` higher precedence than `or`:
the token stream `a and b or c and d` parses to
`Any(All(Key a, Key b), All(Key c, Key d))` with nothing left over. -/
theorem and_binds_tighter_than_or :
    parseConditionTokens
      [.ident "a", .ident "and", .ident "b", .ident "or",
       .ident "c", .ident "and", .ident "d"] =
      .ok (.Any [.All [.Key "a", .Key "b"], .All [.Key "c", .Key "d"]], []) :=
  rfl

/-- C1 counterexample: on the token stream consisting of the single
identifier `not` — Primary position, not followed by a parenthesized group —
`parse_condition` fails with a syntax error; it does not accept the stream as
the plain predicate `Key "not"` as the claim states. -/
theorem not_bare_key_fails :
    parseConditionTokens [.ident "not"] = .error "expected parentheses" := rfl

/-- C1 (amended): `parse_primary` commits to the negation form as soon as it
consumes the identifier `not`, with no lookahead: when the next token is not
a parenthesized group it fails with the `expected parentheses` error, and
when a parenthesized group follows whose content parses as a condition the
result is `Not` of that condition.  A bare predicate named `not` is never
accepted as `Key "not"`. -/
theorem not_always_negation_keyword :
    (∀ fuel rest, (∀ g tl, rest ≠ Tok.group g :: tl) →
      parse_primary (fuel + 1) (.ident "not" :: rest) =
        .error "expected parentheses")
    ∧ (∀ fuel g rest inner, parse_condition fuel g = .ok (inner, []) →
      parse_primary (fuel + 1) (.ident "not" :: .group g :: rest) =
        .ok (.Not inner, rest)) := by
  constructor
  · intro fuel rest h
    match rest with
    | [] => rfl
    | .ident s :: tl => rfl
    | .eq :: tl => rfl
    | .litStr s :: tl => rfl
    | .comma :: tl => rfl
    | .kwIf :: tl => rfl
    | .group g :: tl => exact absurd rfl (h g tl)
  · intro fuel g rest inner h
    simp [parse_primary, h]

/-- Witness for `not_always_negation_keyword` at concrete inputs. -/
theorem not_always_negation_keyword_witness :
    parse_primary 1 [.ident "not"] = .error "expected parentheses" ∧
    parse_primary 9 [.ident "not", .group [.ident "a"]] =
      .ok (.Not (.Key "a"), []) :=
  ⟨not_always_negation_keyword.1 0 [] (fun g tl => by simp),
   not_always_negation_keyword.2 8 [.ident "a"] [] (.Key "a") rfl⟩

/-- Lemma: `cfgMapList` is exactly `List.map condition_to_cfg`. -/
theorem cfgMapList_eq_map (es : List ConditionExpr) :
    cfgMapList es = es.map condition_to_cfg := by
  induction es with
  | nil => simp [cfgMapList]
  | cons e rest ih => simp [cfgMapList, ih]

/-- Lemma: `condition_to_cfg` never emits an empty token stream. -/
theorem condition_to_cfg_ne_nil (c : ConditionExpr) :
    condition_to_cfg c ≠ [] := by
  cases c <;> simp [condition_to_cfg]

/-- Lemma: `condition_to_cfg` never emits a top-level comma (commas live inside the
single `Tok.group` token of `all`/`any`/`not`). -/
theorem condition_to_cfg_comma_free (c : ConditionExpr) :
    Tok.comma ∉ condition_to_cfg c := by
  cases c <;> simp [condition_to_cfg]

/-- A comma-free stream is one whole comma-split chunk. -/
theorem splitGo_comma_free (l : List Tok) (h : Tok.comma ∉ l) :
    splitGo l = [l] := by
  induction l with
  | nil => rfl
  | cons t rest ih =>
    have ht : t ≠ Tok.comma := fun he => h (he ▸ List.mem_cons_self t rest)
    have hrest : Tok.comma ∉ rest := fun hm => h (List.mem_cons_of_mem t hm)
    cases t <;> simp_all [splitGo]

/-- Splitting a stream that starts with a comma-free chunk followed by a
comma peels off that chunk. -/
theorem splitGo_append (l ts : List Tok) (h : Tok.comma ∉ l) :
    splitGo (l ++ .comma :: ts) = l :: splitGo ts := by
  induction l with
  | nil => simp [splitGo]
  | cons t rest ih =>
    have ht : t ≠ Tok.comma := fun he => h (he ▸ List.mem_cons_self t rest)
    have hrest : Tok.comma ∉ rest := fun hm => h (List.mem_cons_of_mem t hm)
    cases t <;> simp_all [splitGo]

/-- Joining nonempty chunks yields a nonempty stream. -/
theorem joinComma_ne_nil (l : List Tok) (ls : List (List Tok)) (h : l ≠ []) :
    joinComma (l :: ls) ≠ [] := by
  cases ls with
  | nil => simpa [joinComma] using h
  | cons l' ls' =>
    cases l with
    | nil => exact absurd rfl h
    | cons t ts => simp [joinComma]

/-- The top-level comma split is a left inverse of comma joining, for
nonempty comma-free chunks. -/
theorem splitTop_joinComma (ls : List (List Tok))
    (h : ∀ l ∈ ls, l ≠ [] ∧ Tok.comma ∉ l) :
    splitTop (joinComma ls) = ls := by
  induction ls with
  | nil => rfl
  | cons l ls' ih =>
    cases ls' with
    | nil =>
      obtain ⟨hne, hcf⟩ := h l (List.mem_cons_self l [])
      cases l with
      | nil => exact absurd rfl hne
      | cons t ts =>
        simpa [joinComma, splitTop] using splitGo_comma_free _ hcf
    | cons l' ls'' =>
      obtain ⟨hne, hcf⟩ := h l (List.mem_cons_self l _)
      have hrest : ∀ x ∈ l' :: ls'', x ≠ [] ∧ Tok.comma ∉ x :=
        fun x hx => h x (List.mem_cons_of_mem l hx)
      have hJ : joinComma (l' :: ls'') ≠ [] :=
        joinComma_ne_nil l' ls'' (hrest l' (List.mem_cons_self l' _)).1
      have hIH := ih hrest
      have hjoin : joinComma (l :: l' :: ls'') =
          l ++ .comma :: joinComma (l' :: ls'') := by
        cases l with
        | nil => exact absurd rfl hne
        | cons t ts => simp [joinComma]
      rw [hjoin]
      cases hl : l ++ Tok.comma :: joinComma (l' :: ls'') with
      | nil => simp at hl
      | cons u us =>
        rw [← hl]
        have hsplit := splitGo_append l (joinComma (l' :: ls'')) hcf
        have : splitTop (l ++ Tok.comma :: joinComma (l' :: ls'')) =
            splitGo (l ++ Tok.comma :: joinComma (l' :: ls'')) := by
          rw [hl]; rfl
        rw [this, hsplit]
        cases hJ' : joinComma (l' :: ls'') with
        | nil => exact absurd hJ' hJ
        | cons v vs =>
          have : splitGo (joinComma (l' :: ls'')) =
              splitTop (joinComma (l' :: ls'')) := by
            rw [hJ']; rfl
          rw [← hJ', this, hIH]

/-- All chunks produced by `cfgMapList` are nonempty and comma-free. -/
theorem cfgMapList_chunks (es : List ConditionExpr) :
    ∀ l ∈ cfgMapList es, l ≠ [] ∧ Tok.comma ∉ l := by
  intro l hl
  rw [cfgMapList_eq_map] at hl
  obtain ⟨e, _, rfl⟩ := List.mem_map.mp hl
  exact ⟨condition_to_cfg_ne_nil e, condition_to_cfg_comma_free e⟩

/-- With enough fuel, decoding inverts encoding (mutual statement over
expressions and argument lists, by induction on fuel). -/
theorem decodeCfg_roundtrip_aux : ∀ fuel,
    (∀ c : ConditionExpr, c.msize < fuel →
      decodeCfg fuel (condition_to_cfg c) = some c)
    ∧ (∀ es : List ConditionExpr, ConditionExpr.msizeList es < fuel →
      decodeCfgList fuel (cfgMapList es) = some es) := by
  intro fuel
  induction fuel with
  | zero => exact ⟨fun c h => absurd h (by omega), fun es h => absurd h (by omega)⟩
  | succ f ih =>
    constructor
    · intro c hc
      cases c with
      | All es =>
        have hsz : ConditionExpr.msizeList es < f := by
          simp [ConditionExpr.msize] at hc; omega
        simp only [condition_to_cfg, decodeCfg,
          splitTop_joinComma _ (cfgMapList_chunks es), ih.2 es hsz]
      | Any es =>
        have hsz : ConditionExpr.msizeList es < f := by
          simp [ConditionExpr.msize] at hc; omega
        simp only [condition_to_cfg, decodeCfg,
          splitTop_joinComma _ (cfgMapList_chunks es), ih.2 es hsz]
      | Not e =>
        have hsz : e.msize < f := by
          simp [ConditionExpr.msize] at hc; omega
        simp only [condition_to_cfg, decodeCfg, ih.1 e hsz]
      | KeyVal k v => simp [condition_to_cfg, decodeCfg]
      | Key k => simp [condition_to_cfg, decodeCfg]
    · intro es hes
      cases es with
      | nil => simp [cfgMapList, decodeCfgList]
      | cons e rest =>
        have h1 : e.msize < f := by
          simp [ConditionExpr.msizeList] at hes; omega
        have h2 : ConditionExpr.msizeList rest < f := by
          simp [ConditionExpr.msizeList] at hes; omega
        simp only [cfgMapList, decodeCfgList, ih.1 e h1, ih.2 rest h2]

/-- C7: `condition_to_cfg` is a total structural map whose output nests
exactly as the AST does: each constructor emits its claimed concrete syntax
(`all(...)`, `any(...)`, `not(...)`, `k = "v"`, bare `k`, children mapped and
comma-joined in order), and the emitted syntax decodes back to exactly the
input AST, so distinct shapes are never conflated. -/
theorem condition_to_cfg_structural_total :
    (∀ c : ConditionExpr,
      decodeCfg (c.msize + 1) (condition_to_cfg c) = some c)
    ∧ (∀ es, condition_to_cfg (.All es) =
        [.ident "all", .group (joinComma (es.map condition_to_cfg))])
    ∧ (∀ es, condition_to_cfg (.Any es) =
        [.ident "any", .group (joinComma (es.map condition_to_cfg))])
    ∧ (∀ e, condition_to_cfg (.Not e) =
        [.ident "not", .group (condition_to_cfg e)])
    ∧ (∀ k v, condition_to_cfg (.KeyVal k v) = [.ident k, .eq, .litStr v])
    ∧ (∀ k, condition_to_cfg (.Key k) = [.ident k]) := by
  refine ⟨fun c => (decodeCfg_roundtrip_aux (c.msize + 1)).1 c (by omega),
    fun es => ?_, fun es => ?_, fun e => rfl, fun k v => rfl, fun k => rfl⟩
  · simp [condition_to_cfg, cfgMapList_eq_map]
  · simp [condition_to_cfg, cfgMapList_eq_map]

/-- A non-`not` identifier whose successor token is absent or an identifier
parses as a bare key. -/
theorem parse_primary_plain_key (fuel : Nat) (k : String) (rest : List Tok)
    (hk : k ≠ "not")
    (hr : rest = [] ∨ ∃ s tl, rest = .ident s :: tl) :
    parse_primary (fuel + 1) (.ident k :: rest) = .ok (.Key k, rest) := by
  rcases hr with rfl | ⟨s, tl, rfl⟩ <;> simp [parse_primary, hk]

/-- A chain tail is empty or starts with the operator identifier. -/
theorem chainTail_head_shape (op : String) (ks : List String) :
    chainTail op ks = [] ∨ ∃ s tl, chainTail op ks = .ident s :: tl ∧ s = op := by
  cases ks with
  | nil => exact Or.inl rfl
  | cons k rest => exact Or.inr ⟨op, _, rfl, rfl⟩

/-- The `and` loop returns without consuming anything when the next token is
absent or an identifier other than `and`. -/
theorem parse_and_loop_stops (fuel : Nat) (expr : ConditionExpr)
    (input : List Tok)
    (h : input = [] ∨ ∃ s tl, input = .ident s :: tl ∧ s ≠ "and") :
    parse_and_loop (fuel + 1) expr input = .ok (expr, input) := by
  rcases h with rfl | ⟨s, tl, rfl, hs⟩
  · simp [parse_and_loop]
  · simp [parse_and_loop, hs]

/-- One `and`-loop iteration: consume `and`, parse the next `Primary`, fold
it into the accumulator exactly as the source `match` does. -/
theorem parse_and_loop_step (fuel : Nat) (expr rhs : ConditionExpr)
    (tl rest2 : List Tok) (h : parse_primary fuel tl = .ok (rhs, rest2)) :
    parse_and_loop (fuel + 1) expr (.ident "and" :: tl) =
      parse_and_loop fuel
        (match expr with
         | .All v => .All (v ++ [rhs])
         | _ => .All [expr, rhs]) rest2 := by
  conv_lhs => rw [parse_and_loop]
  simp [h]

/-- One `or`-loop iteration: consume `or`, parse the next `AndExpr`, fold it
into the accumulator exactly as the source `match` does. -/
theorem parse_or_loop_step (fuel : Nat) (expr rhs : ConditionExpr)
    (tl rest2 : List Tok) (h : parse_and_expr fuel tl = .ok (rhs, rest2)) :
    parse_or_loop (fuel + 1) expr (.ident "or" :: tl) =
      parse_or_loop fuel
        (match expr with
         | .Any v => .Any (v ++ [rhs])
         | _ => .Any [expr, rhs]) rest2 := by
  conv_lhs => rw [parse_or_loop]
  simp [h]

/-- Running the `and` loop over the tail of an `and` chain folds every key
into the accumulated `All` node, in order. -/
theorem parse_and_loop_chain (ks : List String) : ∀ (fuel : Nat)
    (acc : List ConditionExpr), (∀ k ∈ ks, k ≠ "not") →
    ks.length + 2 ≤ fuel →
    parse_and_loop fuel (.All acc) (chainTail "and" ks) =
      .ok (.All (acc ++ ks.map .Key), []) := by
  induction ks with
  | nil =>
    intro fuel acc _ hf
    obtain ⟨f, rfl⟩ : ∃ f, fuel = f + 1 := ⟨fuel - 1, by omega⟩
    simp [chainTail, parse_and_loop]
  | cons k rest ih =>
    intro fuel acc hks hf
    obtain ⟨f, rfl⟩ : ∃ f, fuel = f + 2 := ⟨fuel - 2, by omega⟩
    have hk : k ≠ "not" := hks k (List.mem_cons_self _ _)
    have hshape : chainTail "and" rest = [] ∨
        ∃ s tl, chainTail "and" rest = .ident s :: tl := by
      rcases chainTail_head_shape "and" rest with h | ⟨s, tl, h, _⟩
      · exact Or.inl h
      · exact Or.inr ⟨s, tl, h⟩
    have hprim := parse_primary_plain_key f k (chainTail "and" rest) hk hshape
    have hrec := ih (f + 1) (acc ++ [ConditionExpr.Key k])
      (fun x hx => hks x (List.mem_cons_of_mem k hx)) (by simp at hf ⊢; omega)
    rw [show chainTail "and" (k :: rest) =
      .ident "and" :: .ident k :: chainTail "and" rest from rfl]
    rw [parse_and_loop_step (f + 1) _ _ _ _ hprim]
    simp only [List.append_assoc] at hrec
    simpa [List.map_cons] using hrec

/-- Parsing a single key as an `AndExpr`, when the following token cannot
continue the `and` loop. -/
theorem parse_and_expr_single_key (fuel : Nat) (k : String) (tail : List Tok)
    (hk : k ≠ "not")
    (ht : tail = [] ∨ ∃ s tl, tail = .ident s :: tl ∧ s ≠ "and") :
    parse_and_expr (fuel + 2) (.ident k :: tail) = .ok (.Key k, tail) := by
  have hshape : tail = [] ∨ ∃ s tl, tail = .ident s :: tl := by
    rcases ht with rfl | ⟨s, tl, h, _⟩
    · exact Or.inl rfl
    · exact Or.inr ⟨s, tl, h⟩
  have hprim := parse_primary_plain_key fuel k tail hk hshape
  have hstop := parse_and_loop_stops fuel (.Key k) tail ht
  simp only [parse_and_expr, hprim, hstop]

/-- A chain tail over `or` never begins with the identifier `and`. -/
theorem chainTail_or_not_and (ks : List String) :
    chainTail "or" ks = [] ∨
      ∃ s tl, chainTail "or" ks = .ident s :: tl ∧ s ≠ "and" := by
  rcases chainTail_head_shape "or" ks with h | ⟨s, tl, h, hs⟩
  · exact Or.inl h
  · exact Or.inr ⟨s, tl, h, by rw [hs]; simp⟩

/-- Running the `or` loop over the tail of an `or` chain folds every key
into the accumulated `Any` node, in order. -/
theorem parse_or_loop_chain (ks : List String) : ∀ (fuel : Nat)
    (acc : List ConditionExpr), (∀ k ∈ ks, k ≠ "not") →
    ks.length + 4 ≤ fuel →
    parse_or_loop fuel (.Any acc) (chainTail "or" ks) =
      .ok (.Any (acc ++ ks.map .Key), []) := by
  induction ks with
  | nil =>
    intro fuel acc _ hf
    obtain ⟨f, rfl⟩ : ∃ f, fuel = f + 1 := ⟨fuel - 1, by omega⟩
    simp [chainTail, parse_or_loop]
  | cons k rest ih =>
    intro fuel acc hks hf
    obtain ⟨f, rfl⟩ : ∃ f, fuel = f + 3 := ⟨fuel - 3, by omega⟩
    have hk : k ≠ "not" := hks k (List.mem_cons_self _ _)
    have hand := parse_and_expr_single_key f k (chainTail "or" rest) hk
      (chainTail_or_not_and rest)
    have hrec := ih (f + 2) (acc ++ [ConditionExpr.Key k])
      (fun x hx => hks x (List.mem_cons_of_mem k hx)) (by simp at hf ⊢; omega)
    rw [show chainTail "or" (k :: rest) =
      .ident "or" :: .ident k :: chainTail "or" rest from rfl]
    rw [parse_or_loop_step (f + 2) _ _ _ _ hand]
    simp only [List.append_assoc] at hrec
    simpa [List.map_cons] using hrec

/-- Parsing an `and` chain of at least two keys as an `AndExpr` yields a
single flat `All` node over the keys, in order, with nothing left over. -/
theorem parse_and_expr_chain (ks : List String) (fuel : Nat)
    (h2 : 2 ≤ ks.length) (hks : ∀ k ∈ ks, k ≠ "not")
    (hf : ks.length + 4 ≤ fuel) :
    parse_and_expr fuel (chainToks "and" ks) =
      .ok (.All (ks.map .Key), []) := by
  match ks, h2 with
  | k0 :: k1 :: krest, _ =>
    obtain ⟨g, rfl⟩ : ∃ g, fuel = g + 3 := ⟨fuel - 3, by omega⟩
    have hk0 : k0 ≠ "not" := hks k0 (by simp)
    have hk1 : k1 ≠ "not" := hks k1 (by simp)
    have hprim0 := parse_primary_plain_key (g + 1) k0
      (chainTail "and" (k1 :: krest)) hk0 (Or.inr ⟨"and", _, rfl⟩)
    have hshape1 : chainTail "and" krest = [] ∨
        ∃ s tl, chainTail "and" krest = .ident s :: tl := by
      rcases chainTail_head_shape "and" krest with h | ⟨s, tl, h, _⟩
      · exact Or.inl h
      · exact Or.inr ⟨s, tl, h⟩
    have hprim1 := parse_primary_plain_key g k1
      (chainTail "and" krest) hk1 hshape1
    have hloop := parse_and_loop_chain krest (g + 1)
      [ConditionExpr.Key k0, ConditionExpr.Key k1]
      (fun x hx => hks x (by simp [hx])) (by simp at hf ⊢; omega)
    rw [show chainToks "and" (k0 :: k1 :: krest) =
      .ident k0 :: chainTail "and" (k1 :: krest) from rfl]
    conv_lhs => rw [parse_and_expr]
    rw [hprim0]
    rw [show chainTail "and" (k1 :: krest) =
      .ident "and" :: .ident k1 :: chainTail "and" krest from rfl]
    show parse_and_loop (g + 1 + 1) (ConditionExpr.Key k0)
      (.ident "and" :: .ident k1 :: chainTail "and" krest) = _
    rw [parse_and_loop_step (g + 1) _ _ _ _ hprim1]
    simpa [List.map_cons] using hloop

/-- Parsing an `and` chain of at least two keys yields a single flat `All`
node over the keys, in order, with nothing left over. -/
theorem parse_condition_and_chain (ks : List String) (fuel : Nat)
    (h2 : 2 ≤ ks.length) (hks : ∀ k ∈ ks, k ≠ "not")
    (hf : ks.length + 8 ≤ fuel) :
    parse_condition fuel (chainToks "and" ks) =
      .ok (.All (ks.map .Key), []) := by
  obtain ⟨f, rfl⟩ : ∃ f, fuel = f + 3 := ⟨fuel - 3, by omega⟩
  have hand := parse_and_expr_chain ks (f + 1) h2 hks (by omega)
  conv_lhs => rw [parse_condition]
  conv_lhs => rw [parse_or_expr]
  rw [hand]
  simp [parse_or_loop]

/-- Parsing an `or` chain of at least two keys yields a single flat `Any`
node over the keys, in order, with nothing left over. -/
theorem parse_condition_or_chain (ks : List String) (fuel : Nat)
    (h2 : 2 ≤ ks.length) (hks : ∀ k ∈ ks, k ≠ "not")
    (hf : ks.length + 8 ≤ fuel) :
    parse_condition fuel (chainToks "or" ks) =
      .ok (.Any (ks.map .Key), []) := by
  match ks, h2 with
  | k0 :: k1 :: krest, _ =>
    obtain ⟨f, rfl⟩ : ∃ f, fuel = f + 6 := ⟨fuel - 6, by omega⟩
    have hk0 : k0 ≠ "not" := hks k0 (by simp)
    have hk1 : k1 ≠ "not" := hks k1 (by simp)
    have hand0 := parse_and_expr_single_key (f + 2) k0
      (chainTail "or" (k1 :: krest)) hk0
      (chainTail_or_not_and (k1 :: krest))
    have hand1 := parse_and_expr_single_key (f + 1) k1
      (chainTail "or" krest) hk1 (chainTail_or_not_and krest)
    have hloop := parse_or_loop_chain krest (f + 3)
      [ConditionExpr.Key k0, ConditionExpr.Key k1]
      (fun x hx => hks x (by simp [hx])) (by simp at hf ⊢; omega)
    rw [show chainToks "or" (k0 :: k1 :: krest) =
      .ident k0 :: chainTail "or" (k1 :: krest) from rfl]
    conv_lhs => rw [parse_condition]
    conv_lhs => rw [parse_or_expr]
    rw [show parse_and_expr (f + 4)
        (.ident k0 :: chainTail "or" (k1 :: krest)) =
      .ok (.Key k0, chainTail "or" (k1 :: krest)) from hand0]
    rw [show chainTail "or" (k1 :: krest) =
      .ident "or" :: .ident k1 :: chainTail "or" krest from rfl]
    show parse_or_loop (f + 3 + 1) (ConditionExpr.Key k0)
      (.ident "or" :: .ident k1 :: chainTail "or" krest) = _
    rw [parse_or_loop_step (f + 3) _ _ _ _ hand1]
    simpa [List.map_cons] using hloop

/-- Token count of a chain tail. -/
theorem sizeList_chainTail (op : String) (ks : List String) :
    Tok.sizeList (chainTail op ks) = 2 * ks.length := by
  induction ks with
  | nil => rfl
  | cons k rest ih => simp [chainTail, Tok.sizeList, Tok.size, ih]; omega

/-- C5: a left-associative chain of `n ≥ 3` bare keys combined by `and`
(resp. `or`) parses to one flat `All` (resp. `Any`) node whose children are
exactly the `n` keys in order — never a nested binary chain; in particular
`a and b and c` parses to a single three-child `All` node. -/
theorem chain_flattening :
    (∀ ks : List String, 3 ≤ ks.length → (∀ k ∈ ks, k ≠ "not") →
      parseConditionTokens (chainToks "and" ks) =
        .ok (.All (ks.map .Key), []))
    ∧ (∀ ks : List String, 3 ≤ ks.length → (∀ k ∈ ks, k ≠ "not") →
      parseConditionTokens (chainToks "or" ks) =
        .ok (.Any (ks.map .Key), []))
    ∧ parseConditionTokens
        [.ident "a", .ident "and", .ident "b", .ident "and", .ident "c"] =
        .ok (.All [.Key "a", .Key "b", .Key "c"], []) := by
  refine ⟨fun ks h3 hks => ?_, fun ks h3 hks => ?_, rfl⟩
  · refine parse_condition_and_chain ks _ (by omega) hks ?_
    match ks, h3 with
    | k0 :: ktail, _ =>
      simp [condFuel, chainToks, Tok.sizeList, Tok.size, sizeList_chainTail]
      omega
  · refine parse_condition_or_chain ks _ (by omega) hks ?_
    match ks, h3 with
    | k0 :: ktail, _ =>
      simp [condFuel, chainToks, Tok.sizeList, Tok.size, sizeList_chainTail]
      omega

/-- C9: a syntax error anywhere in the input — in an item, a nested module
body, or a condition clause — makes the whole transformation fail with that
error and produce no output: the pipeline yields a syntax error whenever the
parse does (never a partial result), exemplified on a `KeyVal` missing its
string literal, a bad clause inside a nested module body, a malformed
condition clause, and a module missing its body. -/
theorem parse_error_aborts_all :
    (∀ ts e, parsePragmaItems (itemFuel ts) ts = .error e →
      pragma_expand ts = .error e ∧ ∀ out, pragma_expand ts ≠ .ok out)
    ∧ pragma_expand [.parenGroup [.kwIf, .ident "a", .eq], .itemTok "x"] =
        .error "expected string literal"
    ∧ pragma_expand [.kwMod, .identTok "m",
        .braceGroup [.parenGroup [.ident "z"], .itemTok "y"]] =
        .error "expected `if`"
    ∧ pragma_expand [.parenGroup [.kwIf, .ident "not"], .itemTok "x"] =
        .error "expected parentheses"
    ∧ pragma_expand [.kwMod, .identTok "m"] =
        .error "expected module name and body" := by
  refine ⟨fun ts e h => ⟨?_, fun out hout => ?_⟩, rfl, rfl, rfl, rfl⟩
  · simp [pragma_expand, h]
  · simp [pragma_expand, h] at hout

/-- Witness for `parse_error_aborts_all` at a concrete
malformed input. -/
theorem parse_error_aborts_all_witness :
    pragma_expand [.parenGroup [.kwIf, .ident "a", .eq], .itemTok "x"] =
      .error "expected string literal" :=
  (parse_error_aborts_all.1
    [.parenGroup [.kwIf, .ident "a", .eq], .itemTok "x"]
    "expected string literal" rfl).1

/-- Leading attribute tokens are collected, stopping at the first
non-attribute token. -/
theorem takeAttrs_collects (as_ : List String) (t : ITok) (r : List ITok)
    (h : ∀ s, t ≠ .attrTok s) :
    takeAttrs (as_.map .attrTok ++ t :: r) = (as_, t :: r) := by
  induction as_ with
  | nil =>
    cases t with
    | attrTok s => exact absurd rfl (h s)
    | visTok s => simp [takeAttrs]
    | parenGroup g => simp [takeAttrs]
    | kwMod => simp [takeAttrs]
    | identTok s => simp [takeAttrs]
    | braceGroup g => simp [takeAttrs]
    | semi => simp [takeAttrs]
    | itemTok s => simp [takeAttrs]
  | cons a rest ih => simp [takeAttrs, ih]

/-- C10: when a parenthesized group immediately follows the visibility
qualifier, `PragmaItem::parse` commits to reading it as a condition clause:
if the group does not start with the `if` keyword the whole item parse fails
with a syntax error, and if it does, the group is consumed as the item's
condition and the following token is read as the item body — a leading
parenthesized group is never treated as part of the item body. -/
theorem paren_group_commits_to_condition :
    (∀ (fuel : Nat) (as_ : List String) (q : String) (g : List Tok)
      (rest : List ITok), (∀ gtl, g ≠ Tok.kwIf :: gtl) →
      parsePragmaItem (fuel + 1)
        (as_.map ITok.attrTok ++ .visTok q :: .parenGroup g :: rest) =
        .error "expected `if`")
    ∧ (∀ (fuel : Nat) (as_ : List String) (q : String) (gtail : List Tok)
      (rest : List ITok) (s : String) (c : ConditionExpr),
      parse_condition (condFuel gtail) gtail = .ok (c, []) →
      parsePragmaItem (fuel + 1)
        (as_.map ITok.attrTok ++ .visTok q :: .parenGroup (.kwIf :: gtail) ::
          .itemTok s :: rest) =
        .ok (.mk as_ (.explicitVis q) (some c) (.normal s), rest)) := by
  constructor
  · intro fuel as_ q g rest h
    have ht := takeAttrs_collects as_ (.visTok q) (.parenGroup g :: rest)
      (fun s hs => ITok.noConfusion hs)
    conv_lhs => rw [parsePragmaItem]
    cases g with
    | nil => simp only [ht, takeVis]
    | cons t gtl =>
      cases t with
      | kwIf => exact absurd rfl (h gtl)
      | ident s => simp only [ht, takeVis]
      | eq => simp only [ht, takeVis]
      | litStr s => simp only [ht, takeVis]
      | comma => simp only [ht, takeVis]
      | group g2 => simp only [ht, takeVis]
  · intro fuel as_ q gtail rest s c h
    have ht := takeAttrs_collects as_ (.visTok q)
      (.parenGroup (.kwIf :: gtail) :: .itemTok s :: rest)
      (fun x hx => ITok.noConfusion hx)
    conv_lhs => rw [parsePragmaItem]
    simp only [ht, takeVis, h]

/-- Witness for `paren_group_commits_to_condition` at concrete inputs. -/
theorem paren_group_commits_to_condition_witness :
    parsePragmaItem 1 [.visTok "pub", .parenGroup [.ident "x"], .itemTok "y"] =
      .error "expected `if`" ∧
    parsePragmaItem 1
        [.visTok "pub", .parenGroup [.kwIf, .ident "t"], .itemTok "y"] =
      .ok (.mk [] (.explicitVis "pub") (some (.Key "t")) (.normal "y"), []) :=
  ⟨paren_group_commits_to_condition.1 0 [] "pub" [.ident "x"] [.itemTok "y"]
    (fun gtl hg => by simp at hg),
   paren_group_commits_to_condition.2 0 [] "pub" [.ident "t"] [] "y"
    (.Key "t") rfl⟩

/-- Witness for `chain_flattening` at a concrete four-key chain. -/
theorem chain_flattening_witness :
    parseConditionTokens (chainToks "and" ["p", "q", "r", "s"]) =
      .ok (.All [.Key "p", .Key "q", .Key "r", .Key "s"], []) ∧
    parseConditionTokens (chainToks "or" ["p", "q", "r"]) =
      .ok (.Any [.Key "p", .Key "q", .Key "r"], []) :=
  ⟨chain_flattening.1 ["p", "q", "r", "s"] (by simp) (by simp),
   chain_flattening.2.1 ["p", "q", "r"] (by simp) (by simp)⟩

/-- C2: an item (normal or module) with a condition and an explicit
visibility qualifier emits exactly two copies, in order: first guarded by the
translated condition and keeping the explicit visibility, second guarded by
`not(...)` of the translated condition with the visibility stripped; and the
two copies are adjacent in the full output stream. -/
theorem explicit_vis_emits_two_copies :
    (∀ attrs q body c,
      process_item (.mk attrs (.explicitVis q) (some c) (.normal body)) =
        [.item (some (condition_to_cfg c)) attrs (.explicitVis q) body,
         .item (some (inverseCfg (condition_to_cfg c))) attrs .inherited
           body])
    ∧ (∀ attrs q name inner c,
      process_item (.mk attrs (.explicitVis q) (some c) (.mod name inner)) =
        [.mod (some (condition_to_cfg c)) attrs (.explicitVis q) name
           (process_pragma_input inner),
         .mod (some (inverseCfg (condition_to_cfg c))) attrs .inherited name
           (process_pragma_input inner)])
    ∧ (∀ pre itm post,
      process_pragma_input (pre ++ itm :: post) =
        process_pragma_input pre ++ process_item itm ++
          process_pragma_input post) := by
  refine ⟨fun _ _ _ _ => by simp [process_item],
    fun _ _ _ _ _ => by simp [process_item], fun pre itm post => ?_⟩
  rw [show pre ++ itm :: post = pre ++ ([itm] ++ post) from by simp,
    process_pragma_input_append, process_pragma_input_append]
  simp [process_pragma_input]

/-- C3: an item (normal or module) with a condition and the default/inherited
visibility emits exactly one copy, guarded by the translated condition, with
no negated counterpart and the default visibility unchanged. -/
theorem inherited_vis_emits_one_copy :
    (∀ attrs body c,
      process_item (.mk attrs .inherited (some c) (.normal body)) =
        [.item (some (condition_to_cfg c)) attrs .inherited body])
    ∧ (∀ attrs name inner c,
      process_item (.mk attrs .inherited (some c) (.mod name inner)) =
        [.mod (some (condition_to_cfg c)) attrs .inherited name
           (process_pragma_input inner)]) :=
  ⟨fun _ _ _ => by simp [process_item], fun _ _ _ _ => by simp [process_item]⟩

/-- C8: a module carrying a condition and explicit visibility is emitted as
two guarded copies whose contents are one and the same fully transformed
inner item sequence (`process_pragma_input` of the module body), so inner
conditions are resolved identically inside each outer copy. -/
theorem nested_module_two_full_copies :
    ∀ attrs q name inner c, ∃ body,
      body = process_pragma_input inner ∧
      process_item (.mk attrs (.explicitVis q) (some c) (.mod name inner)) =
        [.mod (some (condition_to_cfg c)) attrs (.explicitVis q) name body,
         .mod (some (inverseCfg (condition_to_cfg c))) attrs .inherited name
           body] :=
  fun attrs q name inner c =>
    ⟨process_pragma_input inner, rfl, by simp [process_item]⟩

/-- C6: operator lookahead never consumes an identifier other than the exact
keyword: in Primary position an identifier literally named `and` (or `or`)
parses as a bare key (or key=value), and the `and`/`or` loops stop without
consuming any identifier whose text is not exactly the keyword. -/
theorem operator_lookahead_exact :
    (∀ fuel rest, rest.head? ≠ some Tok.eq →
      parse_primary (fuel + 1) (.ident "and" :: rest) =
        .ok (.Key "and", rest))
    ∧ (∀ fuel rest, rest.head? ≠ some Tok.eq →
      parse_primary (fuel + 1) (.ident "or" :: rest) = .ok (.Key "or", rest))
    ∧ (∀ fuel expr s rest, s ≠ "and" →
      parse_and_loop (fuel + 1) expr (.ident s :: rest) =
        .ok (expr, .ident s :: rest))
    ∧ (∀ fuel expr s rest, s ≠ "or" →
      parse_or_loop (fuel + 1) expr (.ident s :: rest) =
        .ok (expr, .ident s :: rest))
    ∧ parseConditionTokens [.ident "and"] = .ok (.Key "and", [])
    ∧ parseConditionTokens [.ident "or"] = .ok (.Key "or", []) := by
  refine ⟨?_, ?_, ?_, ?_, rfl, rfl⟩
  · intro fuel rest h
    match rest with
    | [] => rfl
    | .eq :: tl => exact absurd rfl h
    | .ident s :: tl => rfl
    | .litStr s :: tl => rfl
    | .comma :: tl => rfl
    | .kwIf :: tl => rfl
    | .group g :: tl => rfl
  · intro fuel rest h
    match rest with
    | [] => rfl
    | .eq :: tl => exact absurd rfl h
    | .ident s :: tl => rfl
    | .litStr s :: tl => rfl
    | .comma :: tl => rfl
    | .kwIf :: tl => rfl
    | .group g :: tl => rfl
  · intro fuel expr s rest h
    simp [parse_and_loop, h]
  · intro fuel expr s rest h
    simp [parse_or_loop, h]

/-- Witness for `operator_lookahead_exact` at concrete inputs. -/
theorem operator_lookahead_exact_witness :
    parse_primary 1 [.ident "and", .ident "x"] =
      .ok (.Key "and", [.ident "x"]) ∧
    parse_primary 1 [.ident "or"] = .ok (.Key "or", []) ∧
    parse_and_loop 1 (.Key "k") [.ident "or"] =
      .ok (.Key "k", [.ident "or"]) ∧
    parse_or_loop 1 (.Key "k") [.ident "z"] =
      .ok (.Key "k", [.ident "z"]) :=
  ⟨operator_lookahead_exact.1 0 [.ident "x"] (by simp),
   operator_lookahead_exact.2.1 0 [] (by simp),
   operator_lookahead_exact.2.2.1 0 (.Key "k") "or" [] (by simp),
   operator_lookahead_exact.2.2.2.1 0 (.Key "k") "z" [] (by simp)⟩
